import Mathlib

/-!
Verification model of the pico_c_lora firmware core
(src/lora.c, src/stepper.c), shallowly embedded in Lean 4.

Bytes are modelled as `Nat` character codes, C strings as `List Nat`
(no NUL terminator; the strings handled by the claims never contain
interior NULs).  Machine integers are `Nat`/`Int` with explicit
`% 2^w` where C performs a narrowing conversion.
-/

namespace PicoLora

/-- Character codes of a Lean string, the byte-level view of a C string
literal. -/
def bytes (s : String) : List Nat :=
  s.toList.map (fun c => c.toNat)

/-- C `tolower` for ASCII: map A-Z (65-90) to a-z, leave the rest. -/
def toLowerByte (c : Nat) : Nat :=
  if 65 ≤ c ∧ c ≤ 90 then c + 32 else c

/-- Model of `strcasecmp(a,b) == 0`: the two strings are equal after
mapping every byte through `tolower`. -/
def strCaseEq (a b : List Nat) : Bool :=
  decide (a.map toLowerByte = b.map toLowerByte)

/-- `lora_is_on_command` (src/lora.c:481-493): case-insensitive match
against the activation aliases ON, START, MOVE, 1. -/
def lora_is_on_command (s : List Nat) : Bool :=
  strCaseEq s (bytes "ON") || strCaseEq s (bytes "START") ||
  strCaseEq s (bytes "MOVE") || strCaseEq s (bytes "1")

/-- `lora_is_off_command` (src/lora.c:495-507): case-insensitive match
against the deactivation aliases OFF, STOP, HALT, 0. -/
def lora_is_off_command (s : List Nat) : Bool :=
  strCaseEq s (bytes "OFF") || strCaseEq s (bytes "STOP") ||
  strCaseEq s (bytes "HALT") || strCaseEq s (bytes "0")

/-- Model of `strstr(hay, needle) != NULL`: the needle occurs as a
contiguous substring of the haystack. -/
def strstrHit (hay needle : List Nat) : Bool :=
  decide (needle <:+: hay)

/-- `is_response_ok` (src/lora.c:602-617): any occurrence of "+ERR" or
"ERROR" forces false; otherwise an occurrence of "OK" or "+OK" means
true. -/
def is_response_ok (s : List Nat) : Bool :=
  if strstrHit s (bytes "+ERR") || strstrHit s (bytes "ERROR") then false
  else strstrHit s (bytes "OK") || strstrHit s (bytes "+OK")

end PicoLora

namespace PicoLora

/-- ASCII decimal digit test ('0'-'9', codes 48-57). -/
def isDigitB (c : Nat) : Bool := 48 ≤ c && c ≤ 57

/-- Consume a maximal run of decimal digits, accumulating the value. -/
def parseDigitsGo : List Nat → Nat → Nat × List Nat
  | [], acc => (acc, [])
  | c :: rest, acc =>
    if isDigitB c then parseDigitsGo rest (acc * 10 + (c - 48))
    else (acc, c :: rest)

/-- Modelled from the C library: `strtoul(s, &end, 10)` restricted to the
unsigned digit-run inputs produced by the +RCV= grammar (no leading
whitespace or sign, value below ULONG_MAX). -/
def strtoulModel (s : List Nat) : Nat × List Nat := parseDigitsGo s 0

/-- Modelled from the C library: `strtol(s, NULL, 10)` restricted to an
optionally signed digit run (no leading whitespace, no overflow), as in
the RSSI field of a +RCV= notification. -/
def strtolModel (s : List Nat) : Int × List Nat :=
  match s with
  | [] => (0, [])
  | c :: rest =>
    if c = 45 then
      let (v, r) := parseDigitsGo rest 0
      (-(v : Int), r)
    else if c = 43 then
      let (v, r) := parseDigitsGo rest 0
      ((v : Int), r)
    else
      let (v, r) := parseDigitsGo s 0
      ((v : Int), r)

/-- C cast of a wider integer to 32-bit signed `int`. -/
def intCast32 (v : Int) : Int := (v + 2 ^ 31) % 2 ^ 32 - 2 ^ 31

/-- Model of `strchr(s, ',')`: split at the first comma, returning the
span before it and the remainder after it; `none` when no comma occurs. -/
def findComma : List Nat → Option (List Nat × List Nat)
  | [] => none
  | c :: rest =>
    if c = 44 then some ([], rest)
    else (findComma rest).map (fun p => (c :: p.1, p.2))

/-- `lora_message_t` (src/lora.h:163-169): sender address (uint16_t),
RSSI (uint8_t), payload length (uint8_t), payload bytes
(char[LORA_MAX_MESSAGE_LENGTH] with LORA_MAX_MESSAGE_LENGTH = 240). -/
structure LoraMessage where
  sender_address : Nat
  rssi : Nat
  payload_length : Nat
  payload : List Nat
deriving DecidableEq

/-- `parse_received_message` (src/lora.c:558-600): zero the destination,
skip the "+RCV=" prefix, read the sender address and declared length with
`strtoul` (skipping one comma after each), then locate the comma that
terminates the payload with `strchr`.  When it exists, the payload length
is recomputed as the delimiter span (cast to uint8_t, then capped at
LORA_MAX_MESSAGE_LENGTH - 1 = 239), the span bytes are copied, and the
RSSI is parsed as `(uint8_t)abs((int)strtol(...))`.  When it does not,
the fields parsed so far remain and the rest stays zeroed. -/
def parse_received_message (resp : List Nat) : LoraMessage :=
  let p0 := resp.drop 5
  let a := strtoulModel p0
  let p2 := if a.2.head? = some 44 then a.2.tail else a.2
  let d := strtoulModel p2
  let p4 := if d.2.head? = some 44 then d.2.tail else d.2
  match findComma p4 with
  | some pr =>
    let plen0 := pr.1.length % 256
    let plen := if plen0 > 239 then 239 else plen0
    { sender_address := a.1 % 65536
      rssi := (intCast32 (strtolModel pr.2).1).natAbs % 256
      payload_length := plen
      payload := pr.1.take plen }
  | none =>
    { sender_address := a.1 % 65536
      rssi := 0
      payload_length := d.1 % 256
      payload := [] }

/-- Value of a decimal digit run. -/
def digitsVal (ds : List Nat) : Nat := ds.foldl (fun a c => a * 10 + (c - 48)) 0

/-- Notification classification step of `lora_receive_message`
(src/lora.c:287-308): only a line whose first five bytes are "+RCV=" is
parsed into a message; every other line (+OK / +ERR echoes, unknown text)
yields no message and never touches the destination structure. -/
def lora_receive_message (line : List Nat) : Option LoraMessage :=
  if line.take 5 = bytes "+RCV=" then some (parse_received_message line) else none

end PicoLora

namespace PicoLora

/-- `uart_rx_buffer_t` (src/lora.c:37-43): circular byte buffer of
capacity UART_RX_BUFFER_SIZE = 512 with head/tail indices (uint16_t,
always reduced mod 512) and a sticky overflow flag.  The backing array is
modelled as a function from index to byte. -/
structure UartRxBuffer where
  data : Nat → Nat
  head : Nat
  tail : Nat
  overflow : Bool

/-- `uart_buffer_init` (src/lora.c:633-638): reset both indices and clear
the overflow flag (the backing array is not cleared). -/
def uart_buffer_init (b : UartRxBuffer) : UartRxBuffer :=
  { b with head := 0, tail := 0, overflow := false }

/-- The statically zero-initialized buffer the firmware starts from
(`internal_state = {0}`, src/lora.c:57). -/
def freshBuffer : UartRxBuffer :=
  { data := fun _ => 0, head := 0, tail := 0, overflow := false }

/-- `uart_buffer_put` (src/lora.c:640-653): advance a provisional head;
when it would collide with the tail, set the sticky overflow flag, drop
the byte and report failure; otherwise store the byte at the old head. -/
def uart_buffer_put (b : UartRxBuffer) (c : Nat) : Bool × UartRxBuffer :=
  let next_head := (b.head + 1) % 512
  if next_head = b.tail then
    (false, { b with overflow := true })
  else
    (true, { b with data := fun i => if i = b.head then c else b.data i, head := next_head })

/-- `uart_buffer_get` (src/lora.c:655-665): empty when head = tail;
otherwise yield the byte at the tail and advance the tail. -/
def uart_buffer_get (b : UartRxBuffer) : Option Nat × UartRxBuffer :=
  if b.head = b.tail then (none, b)
  else (some (b.data b.tail), { b with tail := (b.tail + 1) % 512 })

/-- `uart_buffer_available` (src/lora.c:667-670). -/
def uart_buffer_available (b : UartRxBuffer) : Nat :=
  (b.head + 512 - b.tail) % 512

/-- Repeated `uart_buffer_put` of a byte list, collecting each call's
success flag (the interrupt handler's storage loop, src/lora.c:716-734). -/
def uart_buffer_putList (b : UartRxBuffer) : List Nat → UartRxBuffer × List Bool
  | [] => (b, [])
  | c :: cs =>
    let r := uart_buffer_put b c
    let rest := uart_buffer_putList r.2 cs
    (rest.1, r.1 :: rest.2)

/-- Repeated `uart_buffer_get`, collecting the retrieved bytes and
stopping at the first failure (a consumer draining the buffer). -/
def uart_buffer_getN (b : UartRxBuffer) : Nat → List Nat × UartRxBuffer
  | 0 => ([], b)
  | n + 1 =>
    match uart_buffer_get b with
    | (some c, b') =>
      let rest := uart_buffer_getN b' n
      (c :: rest.1, rest.2)
    | (none, b') => ([], b')

end PicoLora

namespace PicoLora

/-- Loop body of `uart_buffer_get_line` (src/lora.c:672-707): while fewer
than `max_len - 1` bytes are accumulated and a byte can be pulled from
the ring buffer: a terminator (CR 13 / LF 10) with bytes accumulated ends
the line (success); a terminator with nothing accumulated is skipped; any
other byte is appended.  On loop exit (length limit or empty buffer) a
nonempty accumulation is returned as a partial line, otherwise there is
no line.  `fuel` bounds the iteration count; the wrapper passes the
number of buffered bytes, which every `uart_buffer_get` success strictly
decreases, so fuel cannot run out while bytes remain. -/
def uart_buffer_get_line_go (fuel : Nat) (b : UartRxBuffer) (acc : List Nat) (maxLen : Nat) :
    Option (List Nat) × UartRxBuffer :=
  if acc.length < maxLen - 1 then
    match uart_buffer_get b with
    | (some c, b') =>
      match fuel with
      | fuel' + 1 =>
        if c = 13 ∨ c = 10 then
          if acc.length > 0 then (some acc, b')
          else uart_buffer_get_line_go fuel' b' acc maxLen
        else uart_buffer_get_line_go fuel' b' (acc ++ [c]) maxLen
      | 0 => (none, b)
    | (none, b') => if acc.length > 0 then (some acc, b') else (none, b')
  else
    if acc.length > 0 then (some acc, b) else (none, b)

/-- `uart_buffer_get_line` (src/lora.c:672-707). -/
def uart_buffer_get_line (b : UartRxBuffer) (maxLen : Nat) : Option (List Nat) × UartRxBuffer :=
  uart_buffer_get_line_go (uart_buffer_available b) b [] maxLen

end PicoLora

namespace PicoStepper

/-- GPIO output levels, pin number to level. -/
def Gpio : Type := Nat → Bool

/-- `gpio_put`: drive one pin. -/
def gpio_put (g : Gpio) (pin : Nat) (v : Bool) : Gpio :=
  fun p => if p = pin then v else g p

/-- `stepper_direction_t`.  Modelled from the spec: stepper.h is not in
the sources; the spec describes direction as clockwise (+1) or
counter-clockwise (-1 mod 8), matching the two enum values stepper.c
dispatches on. -/
inductive StepperDirection where
  | cw
  | ccw
deriving DecidableEq

/-- `stepper_motor_t`.  Modelled from the spec and stepper.c's field
usage: stepper.h is not in the sources; the spec gives four GPIO pin
identifiers, a per-step delay, a current phase index and an enabled
flag, exactly the fields stepper.c reads and writes.  `current_step` is
a C int, modelled as `Int`. -/
structure StepperMotor where
  pin1 : Nat
  pin2 : Nat
  pin3 : Nat
  pin4 : Nat
  step_delay : Nat
  current_step : Int
  enabled : Bool

/-- `step_sequence` (src/stepper.c:23-32): the 8-row half-step drive
table. -/
def step_sequence : List (Bool × Bool × Bool × Bool) :=
  [(true, false, false, false), (true, true, false, false),
   (false, true, false, false), (false, true, true, false),
   (false, false, true, false), (false, false, true, true),
   (false, false, false, true), (true, false, false, true)]

/-- Row lookup `step_sequence[step]`; C indexing outside 0..7 is
undefined behaviour, modelled as an all-off row (never reached from
states the driver itself produces). -/
def stepRow (i : Int) : Bool × Bool × Bool × Bool :=
  if 0 ≤ i ∧ i < 8 then step_sequence.getD i.toNat (false, false, false, false)
  else (false, false, false, false)

/-- `stepper_apply_step` (src/stepper.c:34-47): a disabled motor is left
untouched (no pin writes, `current_step` not stored); an enabled motor
gets the row pattern driven onto its four pins and `current_step` set. -/
def stepper_apply_step (g : Gpio) (m : StepperMotor) (step : Int) : Gpio × StepperMotor :=
  if !m.enabled then (g, m)
  else
    let r := stepRow step
    (gpio_put (gpio_put (gpio_put (gpio_put g m.pin1 r.1) m.pin2 r.2.1) m.pin3 r.2.2.1)
       m.pin4 r.2.2.2,
     { m with current_step := step })

/-- `stepper_init` (src/stepper.c:49-77) on a non-null motor: populate
the fields with `current_step = 0`, `enabled = true` and drive row 0
(GPIO direction setup has no modelled effect on output levels). -/
def stepper_init (g : Gpio) (pin1 pin2 pin3 pin4 step_delay : Nat) : Gpio × StepperMotor :=
  stepper_apply_step g
    { pin1 := pin1, pin2 := pin2, pin3 := pin3, pin4 := pin4,
      step_delay := step_delay, current_step := 0, enabled := true } 0

/-- One phase advance (src/stepper.c:94-101 and 204-211): clockwise is
`(s + 1) % 8`, counter-clockwise `(s - 1 + 8) % 8`, with C's
truncated-division `%` on int (`Int.tmod`). -/
def stepper_next_step (dir : StepperDirection) (s : Int) : Int :=
  match dir with
  | .cw => (s + 1).tmod 8
  | .ccw => (s - 1 + 8).tmod 8

/-- Observable events of a stepping call: each read of the global
cancellation flag (with the value seen), each lock-step phase advance,
and each sleep chunk.  The cancellation flag itself is modelled as an
oracle `Nat → Bool` giving the value of the `k`-th volatile read, so a
flag raised mid-operation is expressible. -/
inductive StepperEv where
  | read (b : Bool)
  | advance
  | sleep (ms : Nat)
deriving DecidableEq

/-- The interruptible chunked delay (src/stepper.c:106-112 and 222-228):
`while (remaining > 0 && !flag) { sleep(1); remaining -= 1; }` - the
chunk size is `remaining > 1 ? 1 : remaining`, i.e. always one time
unit.  Returns the next read index and the event trace. -/
def stepper_chunked_delay (flag : Nat → Bool) (k : Nat) : Nat → Nat × List StepperEv
  | 0 => (k, [])
  | r + 1 =>
    if flag k then (k + 1, [StepperEv.read true])
    else
      let rest := stepper_chunked_delay flag (k + 1) r
      (rest.1, StepperEv.read false :: StepperEv.sleep 1 :: rest.2)

/-- Result of a single-motor stepping call. -/
structure MoveResult where
  gpio : Gpio
  motor : StepperMotor
  reads : Nat
  trace : List StepperEv

/-- Loop of `stepper_move_steps` (src/stepper.c:86-119): per step, check
the flag (return on set), advance the phase and drive it, then run the
chunked delay followed by a final flag check. -/
def stepper_move_loop (flag : Nat → Bool) (k : Nat) (g : Gpio) (m : StepperMotor)
    (dir : StepperDirection) : Nat → MoveResult
  | 0 => ⟨g, m, k, []⟩
  | n + 1 =>
    if flag k then ⟨g, m, k + 1, [StepperEv.read true]⟩
    else
      let s2 := stepper_next_step dir m.current_step
      let gm := stepper_apply_step g { m with current_step := s2 } s2
      let d := stepper_chunked_delay flag (k + 1) m.step_delay
      if flag d.1 then
        ⟨gm.1, gm.2, d.1 + 1,
          StepperEv.read false :: StepperEv.advance :: (d.2 ++ [StepperEv.read true])⟩
      else
        let r := stepper_move_loop flag (d.1 + 1) gm.1 gm.2 dir n
        ⟨r.gpio, r.motor, r.reads,
          StepperEv.read false :: StepperEv.advance :: (d.2 ++ StepperEv.read false :: r.trace)⟩

/-- `stepper_move_steps` (src/stepper.c:79-120) on a non-null motor: a
disabled motor is a silent no-op; otherwise run the per-step loop. -/
def stepper_move_steps (flag : Nat → Bool) (g : Gpio) (m : StepperMotor)
    (dir : StepperDirection) (steps : Nat) : MoveResult :=
  if !m.enabled then ⟨g, m, 0, []⟩
  else stepper_move_loop flag 0 g m dir steps

/-- Lock-step advancement of one tick of `stepper_rotate_multiple_degrees`
(src/stepper.c:199-214): every non-null enabled motor advances one phase
in the requested direction and drives its pattern; null and disabled
entries are skipped. -/
def stepper_advance_all (g : Gpio) (ms : List (Option StepperMotor))
    (dir : StepperDirection) : Gpio × List (Option StepperMotor) :=
  match ms with
  | [] => (g, [])
  | none :: rest =>
    let r := stepper_advance_all g rest dir
    (r.1, none :: r.2)
  | some m :: rest =>
    if m.enabled then
      let s2 := stepper_next_step dir m.current_step
      let gm := stepper_apply_step g { m with current_step := s2 } s2
      let r := stepper_advance_all gm.1 rest dir
      (r.1, some gm.2 :: r.2)
    else
      let r := stepper_advance_all g rest dir
      (r.1, some m :: r.2)

/-- Delay selection (src/stepper.c:216-231): the step delay of the first
non-null enabled motor, if any. -/
def firstEnabledDelay : List (Option StepperMotor) → Option Nat
  | [] => none
  | none :: rest => firstEnabledDelay rest
  | some m :: rest => if m.enabled then some m.step_delay else firstEnabledDelay rest

/-- Result of a multi-motor stepping call. -/
structure RotateResult where
  gpio : Gpio
  motors : List (Option StepperMotor)
  reads : Nat
  trace : List StepperEv

/-- Step loop of `stepper_rotate_multiple_degrees`
(src/stepper.c:190-238): per step, check the flag (return on set),
advance all enabled motors in lock-step, run the chunked delay taken
from the first enabled motor, then a final flag check. -/
def stepper_rotate_loop (flag : Nat → Bool) (k : Nat) (g : Gpio)
    (ms : List (Option StepperMotor)) (dir : StepperDirection) : Nat → RotateResult
  | 0 => ⟨g, ms, k, []⟩
  | n + 1 =>
    if flag k then ⟨g, ms, k + 1, [StepperEv.read true]⟩
    else
      let a := stepper_advance_all g ms dir
      let d := stepper_chunked_delay flag (k + 1) ((firstEnabledDelay a.2).getD 0)
      if flag d.1 then
        ⟨a.1, a.2, d.1 + 1,
          StepperEv.read false :: StepperEv.advance :: (d.2 ++ [StepperEv.read true])⟩
      else
        let r := stepper_rotate_loop flag (d.1 + 1) a.1 a.2 dir n
        ⟨r.gpio, r.motors, r.reads,
          StepperEv.read false :: StepperEv.advance :: (d.2 ++ StepperEv.read false :: r.trace)⟩

/-- Step count `(uint)((degrees / 360.0f) * STEPS_PER_REVOLUTION)`
(src/stepper.c:188).  Float arithmetic is abstracted to exact rational
arithmetic; the float-to-uint cast truncates toward zero, which for the
nonnegative arguments used here is the floor (negative arguments are
undefined behaviour in C and map to 0). -/
def stepper_steps_of_degrees (degrees : ℚ) (spr : Nat) : Nat :=
  (⌊degrees / 360 * spr⌋).toNat

/-- Step count as the spec's words state it: round(degrees/360 x
steps_per_revolution).  Spec-side definition, for comparison with
`stepper_steps_of_degrees`. -/
def specRoundSteps (degrees : ℚ) (spr : Nat) : Nat :=
  (round (degrees / 360 * spr)).toNat

/-- `stepper_rotate_multiple_degrees` (src/stepper.c:179-239): a null or
empty motor array is a no-op; otherwise the step count is computed once
from the requested angle and the shared loop runs. -/
def stepper_rotate_multiple_degrees (flag : Nat → Bool) (g : Gpio)
    (ms : List (Option StepperMotor)) (degrees : ℚ) (dir : StepperDirection)
    (spr : Nat) : RotateResult :=
  if ms.isEmpty then ⟨g, ms, 0, []⟩
  else stepper_rotate_loop flag 0 g ms dir (stepper_steps_of_degrees degrees spr)

/-- `stepper_disable` (src/stepper.c:133-146) on a non-null motor. -/
def stepper_disable (g : Gpio) (m : StepperMotor) : Gpio × StepperMotor :=
  (gpio_put (gpio_put (gpio_put (gpio_put g m.pin1 false) m.pin2 false) m.pin3 false)
     m.pin4 false,
   { m with enabled := false })

/-- `stepper_enable` (src/stepper.c:148-157) on a non-null motor:
re-enable and re-drive the current phase. -/
def stepper_enable (g : Gpio) (m : StepperMotor) : Gpio × StepperMotor :=
  stepper_apply_step g { m with enabled := true } m.current_step

/-- `stepper_get_position` (src/stepper.c:169-177): -1 for a null motor,
the current phase index otherwise. -/
def stepper_get_position : Option StepperMotor → Int
  | none => -1
  | some m => m.current_step

/-- `stepper_emergency_stop_all` (src/stepper.c:308-329): for every
motor in the array, unconditionally drive all four pins low and mark it
disabled.  The body performs no sleep and no cancellation-flag read, so
its event trace is empty. -/
def stepper_emergency_stop_all (g : Gpio) :
    List StepperMotor → Gpio × List StepperMotor × List StepperEv
  | [] => (g, [], [])
  | m :: rest =>
    let g1 := gpio_put (gpio_put (gpio_put (gpio_put g m.pin1 false) m.pin2 false)
      m.pin3 false) m.pin4 false
    let r := stepper_emergency_stop_all g1 rest
    (r.1, ({ m with enabled := false } : StepperMotor) :: r.2.1, r.2.2)

/-- The cancellation-flag oracle of a level-triggered flag that nothing
clears during the operation: once a read returns true, every later read
does too (src/stepper.c:303-306 and 331-334: only `stepper_set_interrupt`
and `stepper_clear_interrupt` write it, and the OFF path only sets). -/
def MonoFlag (flag : Nat → Bool) : Prop :=
  ∀ i j, i ≤ j → flag i = true → flag j = true

/-- Whether an event is a phase advance. -/
def StepperEv.isAdvance : StepperEv → Bool
  | .advance => true
  | _ => false

/-- A trace without phase advances. -/
def advFree (t : List StepperEv) : Bool :=
  t.all (fun e => !e.isAdvance)

/-- A trace in which no flag read returned true. -/
def noTrueRead (t : List StepperEv) : Bool :=
  t.all (fun e => decide (e ≠ StepperEv.read true))

/-- No phase advance happens at or after the first flag read that
returned true. -/
def noAdvanceAfterTrueRead : List StepperEv → Bool
  | [] => true
  | StepperEv.read true :: rest => advFree rest
  | _ :: rest => noAdvanceAfterTrueRead rest

/-- Number of lock-step phase advances in a trace. -/
def countAdvances (t : List StepperEv) : Nat :=
  t.countP (fun e => e.isAdvance)

/-- A possibly-null motor whose phase index is in 0..7. -/
def motorStepInRange (m? : Option StepperMotor) : Prop :=
  ∀ m, m? = some m → 0 ≤ m.current_step ∧ m.current_step < 8

/-- Iterated lock-step advancement. -/
def advanceIterate (dir : StepperDirection) :
    Nat → Gpio × List (Option StepperMotor) → Gpio × List (Option StepperMotor)
  | 0, x => x
  | n + 1, x => advanceIterate dir n (stepper_advance_all x.1 x.2 dir)

end PicoStepper

namespace PicoLora

/-- If one string is case-insensitively equal to two others, those two are
case-insensitively equal to each other. -/
theorem strCaseEq_of_strCaseEq (s t1 t2 : List Nat)
    (h1 : strCaseEq s t1 = true) (h2 : strCaseEq s t2 = true) :
    strCaseEq t1 t2 = true := by
  simp only [strCaseEq, decide_eq_true_eq] at h1 h2 ⊢
  exact h1.symm.trans h2

/-- C8: error markers dominate: any response containing "+ERR" or "ERROR"
is classified not-OK no matter what else it contains; with no error marker
present, the response is OK exactly when it contains "OK" or "+OK" (the
code's success markers); and the mixed text "+OK but +ERR" classifies as
not-OK. -/
theorem is_response_ok_error_precedence :
    (∀ s : List Nat,
      ((bytes "+ERR") <:+: s ∨ (bytes "ERROR") <:+: s → is_response_ok s = false) ∧
      (¬((bytes "+ERR") <:+: s ∨ (bytes "ERROR") <:+: s) →
        (is_response_ok s = true ↔ ((bytes "OK") <:+: s ∨ (bytes "+OK") <:+: s)))) ∧
    is_response_ok (bytes "+OK but +ERR") = false := by
  refine ⟨fun s => ⟨?_, ?_⟩, by decide⟩
  · intro h
    rcases h with h | h
    · simp [is_response_ok, strstrHit, h]
    · simp [is_response_ok, strstrHit, h]
  · intro h
    have h1 : ¬ (bytes "+ERR") <:+: s := fun hc => h (Or.inl hc)
    have h2 : ¬ (bytes "ERROR") <:+: s := fun hc => h (Or.inr hc)
    simp [is_response_ok, strstrHit, h1, h2]

/-- Witness for C8 at concrete responses. -/
theorem is_response_ok_error_precedence_witness :
    ((bytes "+ERR") <:+: bytes "+ERR" ∨ (bytes "ERROR") <:+: bytes "+ERR") ∧
    is_response_ok (bytes "+ERR") = false := by
  refine ⟨Or.inl (by decide), ?_⟩
  exact (is_response_ok_error_precedence.1 (bytes "+ERR")).1 (Or.inl (by decide))

/-- C9: the activation classifier accepts exactly the case-insensitive
aliases ON, START, MOVE, 1; the deactivation classifier accepts exactly
OFF, STOP, HALT, 0; no string is accepted by both; and "PING" is accepted
by neither. -/
theorem command_classifiers_exact :
    (∀ s : List Nat,
      (lora_is_on_command s = true ↔
        (strCaseEq s (bytes "ON") = true ∨ strCaseEq s (bytes "START") = true ∨
         strCaseEq s (bytes "MOVE") = true ∨ strCaseEq s (bytes "1") = true)) ∧
      (lora_is_off_command s = true ↔
        (strCaseEq s (bytes "OFF") = true ∨ strCaseEq s (bytes "STOP") = true ∨
         strCaseEq s (bytes "HALT") = true ∨ strCaseEq s (bytes "0") = true)) ∧
      ¬(lora_is_on_command s = true ∧ lora_is_off_command s = true)) ∧
    lora_is_on_command (bytes "PING") = false ∧
    lora_is_off_command (bytes "PING") = false := by
  refine ⟨fun s => ⟨?_, ?_, ?_⟩, by decide, by decide⟩
  · simp [lora_is_on_command, Bool.or_eq_true, or_assoc]
  · simp [lora_is_off_command, Bool.or_eq_true, or_assoc]
  · intro ⟨hon, hoff⟩
    simp only [lora_is_on_command, lora_is_off_command, Bool.or_eq_true] at hon hoff
    rcases hon with ((h1 | h1) | h1) | h1 <;> rcases hoff with ((h2 | h2) | h2) | h2 <;>
      exact absurd (strCaseEq_of_strCaseEq _ _ _ h1 h2) (by decide)

/-- Witness for C9: "on" is recognized as an activation alias. -/
theorem command_classifiers_exact_witness :
    strCaseEq (bytes "on") (bytes "ON") = true ∧ lora_is_on_command (bytes "on") = true :=
  ⟨by decide, ((command_classifiers_exact.1 (bytes "on")).1).mpr (Or.inl (by decide))⟩

end PicoLora

namespace PicoLora

/-- `parseDigitsGo` consumes exactly an all-digit prefix and stops at the
first non-digit. -/
theorem parseDigitsGo_append (ds : List Nat) :
    ∀ (rest : List Nat) (acc : Nat),
      (∀ c ∈ ds, isDigitB c = true) →
      (∀ c, rest.head? = some c → isDigitB c = false) →
      parseDigitsGo (ds ++ rest) acc =
        (ds.foldl (fun a c => a * 10 + (c - 48)) acc, rest) := by
  induction ds with
  | nil =>
    intro rest acc _ hrest
    cases rest with
    | nil => rfl
    | cons c r =>
      have hc : isDigitB c = false := hrest c rfl
      simp [parseDigitsGo, hc]
  | cons c ds ih =>
    intro rest acc hds hrest
    have hc : isDigitB c = true := hds c (List.mem_cons_self c ds)
    simp only [List.cons_append, parseDigitsGo, hc, if_true, List.foldl_cons]
    exact ih rest _ (fun x hx => hds x (List.mem_cons_of_mem c hx)) hrest

/-- `findComma` splits at an explicit comma when the span before it is
comma-free. -/
theorem findComma_append (payload : List Nat) :
    ∀ rest : List Nat, (∀ c ∈ payload, c ≠ 44) →
      findComma (payload ++ 44 :: rest) = some (payload, rest) := by
  induction payload with
  | nil => intro rest _; simp [findComma]
  | cons c p ih =>
    intro rest hp
    have hc : c ≠ 44 := hp c (List.mem_cons_self c p)
    simp [findComma, if_neg hc, ih rest (fun x hx => hp x (List.mem_cons_of_mem c hx))]

/-- `findComma` finds nothing in a comma-free list. -/
theorem findComma_none (l : List Nat) (hl : ∀ c ∈ l, c ≠ 44) :
    findComma l = none := by
  induction l with
  | nil => rfl
  | cons c p ih =>
    have hc : c ≠ 44 := hl c (List.mem_cons_self c p)
    simp [findComma, if_neg hc, ih (fun x hx => hl x (List.mem_cons_of_mem c hx))]

end PicoLora

namespace PicoLora

/-- C1: for every notification line `+RCV=<addr>,<dlen>,<payload>,<rest>`
whose payload is terminated by a comma (payload itself comma-free, and of
the length a 256-byte response buffer admits), the stored payload length
is the delimiter-span length capped at LORA_MAX_MESSAGE_LENGTH - 1 = 239
- the declared length field is ignored - and the stored payload is the
span (truncated at the cap); in particular `+RCV=42,999,abc,-17` parses
to sender 42, payload "abc", length 3, and RSSI 17 (absolute value of
-17). -/
theorem parse_rcv_length_from_delimiter :
    (∀ line addrDs lenDs payload rest : List Nat,
      (∀ c ∈ addrDs, isDigitB c = true) →
      (∀ c ∈ lenDs, isDigitB c = true) →
      (∀ c ∈ payload, c ≠ 44) →
      payload.length ≤ 255 →
      line = bytes "+RCV=" ++ addrDs ++ 44 :: lenDs ++ 44 :: payload ++ 44 :: rest →
      (parse_received_message line).payload_length = min payload.length 239 ∧
      (parse_received_message line).payload = payload.take 239) ∧
    parse_received_message (bytes "+RCV=42,999,abc,-17") =
      { sender_address := 42, rssi := 17, payload_length := 3, payload := bytes "abc" } := by
  refine ⟨?_, by decide⟩
  intro line addrDs lenDs payload rest haddr hlen hpay hplen hline
  subst hline
  simp only [List.cons_append, List.append_assoc]
  have hcomma : ∀ (t : List Nat) (c : Nat), (44 :: t).head? = some c → isDigitB c = false := by
    intro t c hc
    cases hc
    decide
  have hdrop :
      (bytes "+RCV=" ++ (addrDs ++ 44 :: (lenDs ++ 44 :: (payload ++ 44 :: rest)))).drop 5 =
        addrDs ++ 44 :: (lenDs ++ 44 :: (payload ++ 44 :: rest)) := by
    rw [show (5 : Nat) = (bytes "+RCV=").length by decide]
    exact List.drop_left _ _
  have h1 : strtoulModel (addrDs ++ 44 :: (lenDs ++ 44 :: (payload ++ 44 :: rest))) =
      (digitsVal addrDs, 44 :: (lenDs ++ 44 :: (payload ++ 44 :: rest))) :=
    parseDigitsGo_append addrDs _ 0 haddr (hcomma _)
  have h2 : strtoulModel (lenDs ++ 44 :: (payload ++ 44 :: rest)) =
      (digitsVal lenDs, 44 :: (payload ++ 44 :: rest)) :=
    parseDigitsGo_append lenDs _ 0 hlen (hcomma _)
  have h3 : findComma (payload ++ 44 :: rest) = some (payload, rest) :=
    findComma_append payload rest hpay
  have hmod : payload.length % 256 = payload.length := Nat.mod_eq_of_lt (by omega)
  simp only [parse_received_message, hdrop, h1, h2, h3, List.head?_cons, List.tail_cons,
    eq_self_iff_true, if_true, hmod]
  constructor
  · split <;> omega
  · split
    · rfl
    · rw [List.take_length, List.take_of_length_le (by omega)]

/-- Witness for C1 on the concrete line `+RCV=42,999,abc,-17`. -/
theorem parse_rcv_length_from_delimiter_witness :
    ((∀ c ∈ bytes "42", isDigitB c = true) ∧ (∀ c ∈ bytes "999", isDigitB c = true) ∧
      (∀ c ∈ bytes "abc", c ≠ 44) ∧ (bytes "abc").length ≤ 255 ∧
      bytes "+RCV=42,999,abc,-17" =
        bytes "+RCV=" ++ bytes "42" ++ 44 :: bytes "999" ++ 44 :: bytes "abc" ++ 44 :: bytes "-17") ∧
    (parse_received_message (bytes "+RCV=42,999,abc,-17")).payload_length =
      min (bytes "abc").length 239 ∧
    (parse_received_message (bytes "+RCV=42,999,abc,-17")).payload = (bytes "abc").take 239 :=
  ⟨⟨by decide, by decide, by decide, by decide, by decide⟩,
    parse_rcv_length_from_delimiter.1 _ (bytes "42") (bytes "999") (bytes "abc") (bytes "-17")
      (by decide) (by decide) (by decide) (by decide) (by decide)⟩

/-- C7 counterexample: the prefixed but comma-incomplete line
`+RCV=7,3,abc` (no comma terminates the payload) does NOT leave the
destination structure entirely zeroed: the sender address field is 7. -/
theorem parse_rcv_malformed_not_zeroed :
    (parse_received_message (bytes "+RCV=7,3,abc")).sender_address = 7 ∧ (7 : Nat) ≠ 0 := by
  decide

/-- C7 (amended): a line without the "+RCV=" prefix is never parsed - the
receive step reports no message and does not write the destination at
all; a prefixed line whose payload is not terminated by a comma leaves
the payload empty and the RSSI zero (their memset defaults), but keeps
the already-parsed leading fields: the sender address and the declared
length (reduced uint16/uint8). -/
theorem parse_rcv_malformed_partial :
    (∀ line : List Nat, line.take 5 ≠ bytes "+RCV=" → lora_receive_message line = none) ∧
    (∀ line addrDs lenDs tl : List Nat,
      (∀ c ∈ addrDs, isDigitB c = true) →
      (∀ c ∈ lenDs, isDigitB c = true) →
      (∀ c ∈ tl, c ≠ 44) →
      line = bytes "+RCV=" ++ addrDs ++ 44 :: lenDs ++ 44 :: tl →
      (parse_received_message line).payload = [] ∧
      (parse_received_message line).rssi = 0 ∧
      (parse_received_message line).sender_address = digitsVal addrDs % 65536 ∧
      (parse_received_message line).payload_length = digitsVal lenDs % 256) := by
  constructor
  · intro line h
    simp [lora_receive_message, h]
  · intro line addrDs lenDs tl haddr hlen htl hline
    subst hline
    simp only [List.cons_append, List.append_assoc]
    have hcomma : ∀ (t : List Nat) (c : Nat), (44 :: t).head? = some c → isDigitB c = false := by
      intro t c hc
      cases hc
      decide
    have hdrop :
        (bytes "+RCV=" ++ (addrDs ++ 44 :: (lenDs ++ 44 :: tl))).drop 5 =
          addrDs ++ 44 :: (lenDs ++ 44 :: tl) := by
      rw [show (5 : Nat) = (bytes "+RCV=").length by decide]
      exact List.drop_left _ _
    have h1 : strtoulModel (addrDs ++ 44 :: (lenDs ++ 44 :: tl)) =
        (digitsVal addrDs, 44 :: (lenDs ++ 44 :: tl)) :=
      parseDigitsGo_append addrDs _ 0 haddr (hcomma _)
    have h2 : strtoulModel (lenDs ++ 44 :: tl) = (digitsVal lenDs, 44 :: tl) :=
      parseDigitsGo_append lenDs _ 0 hlen (hcomma _)
    have h3 : findComma tl = none := findComma_none tl htl
    simp [parse_received_message, hdrop, h1, h2, h3]

/-- Witness for C7's amended theorem at concrete inputs. -/
theorem parse_rcv_malformed_partial_witness :
    ((bytes "AT+OK").take 5 ≠ bytes "+RCV=" ∧
      lora_receive_message (bytes "AT+OK") = none) ∧
    ((∀ c ∈ bytes "7", isDigitB c = true) ∧ (∀ c ∈ bytes "3", isDigitB c = true) ∧
      (∀ c ∈ bytes "abc", c ≠ 44) ∧
      bytes "+RCV=7,3,abc" = bytes "+RCV=" ++ bytes "7" ++ 44 :: bytes "3" ++ 44 :: bytes "abc") ∧
    (parse_received_message (bytes "+RCV=7,3,abc")).payload = [] ∧
    (parse_received_message (bytes "+RCV=7,3,abc")).rssi = 0 ∧
    (parse_received_message (bytes "+RCV=7,3,abc")).sender_address = digitsVal (bytes "7") % 65536 ∧
    (parse_received_message (bytes "+RCV=7,3,abc")).payload_length = digitsVal (bytes "3") % 256 :=
  ⟨⟨by decide, parse_rcv_malformed_partial.1 (bytes "AT+OK") (by decide)⟩,
    ⟨by decide, by decide, by decide, by decide⟩,
    parse_rcv_malformed_partial.2 _ (bytes "7") (bytes "3") (bytes "abc")
      (by decide) (by decide) (by decide) (by decide)⟩

end PicoLora

namespace PicoLora

/-- Filling a buffer whose head is at `h` and tail at 0 with at most
`511 - h` bytes succeeds byte for byte, moves the head past the stored
bytes and leaves everything else alone. -/
theorem uart_buffer_putList_spec (cs : List Nat) :
    ∀ (b : UartRxBuffer) (h : Nat), b.head = h → b.tail = 0 → h + cs.length ≤ 511 →
      (uart_buffer_putList b cs).1.head = h + cs.length ∧
      (uart_buffer_putList b cs).1.tail = 0 ∧
      (uart_buffer_putList b cs).1.overflow = b.overflow ∧
      (uart_buffer_putList b cs).2 = List.replicate cs.length true ∧
      (∀ j, (uart_buffer_putList b cs).1.data j =
        if h ≤ j ∧ j < h + cs.length then cs.getD (j - h) 0 else b.data j) := by
  induction cs with
  | nil =>
    intro b h hh ht _
    refine ⟨by simpa using hh, by simpa using ht, rfl, rfl, ?_⟩
    intro j
    simp only [uart_buffer_putList, List.length_nil, Nat.add_zero]
    rw [if_neg (show ¬(h ≤ j ∧ j < h) from by omega)]
  | cons c cs ih =>
    intro b h hh ht hle
    have hmod : (b.head + 1) % 512 = h + 1 := by
      rw [hh]
      exact Nat.mod_eq_of_lt (by simp at hle; omega)
    have hne : (b.head + 1) % 512 ≠ b.tail := by
      rw [hmod, ht]
      omega
    have hput : uart_buffer_put b c =
        (true, { b with data := fun i => if i = b.head then c else b.data i,
                        head := (b.head + 1) % 512 }) := by
      simp [uart_buffer_put, hne]
    have hlen : (c :: cs).length = cs.length + 1 := by simp
    have ih' := ih { b with data := fun i => if i = b.head then c else b.data i,
                            head := (b.head + 1) % 512 }
      (h + 1) (by simpa using hmod) (by simpa using ht) (by simp at hle ⊢; omega)
    simp only [uart_buffer_putList, hput] at *
    obtain ⟨ih1, ih2, ih3, ih4, ih5⟩ := ih'
    refine ⟨by rw [ih1]; simp; omega, ih2, ih3, by simp [ih4, List.replicate_succ], ?_⟩
    intro j
    rw [ih5 j]
    by_cases hj1 : h + 1 ≤ j ∧ j < h + 1 + cs.length
    · rw [if_pos hj1,
        if_pos (show h ≤ j ∧ j < h + (c :: cs).length from by simp only [List.length_cons]; omega)]
      have hsub : j - h = (j - (h + 1)) + 1 := by omega
      rw [hsub]
      simp [List.getD]
    · rw [if_neg hj1]
      by_cases hj2 : j = h
      · subst hj2
        rw [if_pos (show j = b.head from hh.symm),
          if_pos (show j ≤ j ∧ j < j + (c :: cs).length from by simp only [List.length_cons]; omega)]
        simp [List.getD]
      · rw [if_neg (show ¬ j = b.head from by rw [hh]; exact hj2),
          if_neg (show ¬(h ≤ j ∧ j < h + (c :: cs).length) from by simp only [List.length_cons]; omega)]

/-- Draining `n` bytes from a buffer holding the index range
[tail, head) (no wraparound) returns exactly the stored bytes in order,
stopping at the head when `n` overshoots. -/
theorem uart_buffer_getN_spec (n : Nat) :
    ∀ (b : UartRxBuffer) (t : Nat), b.tail = t → t ≤ b.head → b.head ≤ 511 →
      b.head ≤ t + n →
      (uart_buffer_getN b n).1 = (List.range (b.head - t)).map (fun i => b.data (t + i)) := by
  induction n with
  | zero =>
    intro b t ht hth hh hn
    have : b.head - t = 0 := by omega
    simp [uart_buffer_getN, this]
  | succ n ih =>
    intro b t ht hth hh hn
    by_cases he : b.head = b.tail
    · have hz : b.head - t = 0 := by omega
      simp [uart_buffer_getN, uart_buffer_get, he, hz]
      omega
    · have htlt : t < b.head := by omega
      have hget : uart_buffer_get b = (some (b.data t), { b with tail := t + 1 }) := by
        have hne : b.head ≠ t := by rw [← ht]; exact he
        have hm : (t + 1) % 512 = t + 1 := Nat.mod_eq_of_lt (by omega)
        simp only [uart_buffer_get]
        rw [ht, if_neg hne, hm]
      have ih' := ih { b with tail := t + 1 } (t + 1) rfl (by simpa using htlt)
        (by simpa using hh) (by simp; omega)
      simp only [uart_buffer_getN, hget]
      rw [ih']
      have hr : b.head - t = (b.head - (t + 1)) + 1 := by omega
      rw [hr, List.range_succ_eq_map, List.map_cons, List.map_map, Nat.add_zero]
      congr 1
      apply List.map_congr_left
      intro i _
      simp only [Function.comp_apply]
      congr 1
      omega

/-- Reading a list back by index equals the list. -/
theorem getD_range_eq (l : List Nat) :
    (List.range l.length).map (fun i => l.getD i 0) = l := by
  induction l with
  | nil => rfl
  | cons c l ih =>
    rw [List.length_cons, List.range_succ_eq_map]
    simp only [List.map_cons, List.map_map]
    have h0 : (c :: l).getD 0 0 = c := rfl
    have h1 : ((fun i => (c :: l).getD i 0) ∘ Nat.succ) = (fun i => l.getD i 0) := rfl
    rw [h0, h1, ih]

end PicoLora

namespace PicoLora

/-- Draining at least 511 bytes from a buffer filled with the 511 bytes
of `bs` returns exactly `bs`. -/
theorem uart_buffer_drain_full (bs : List Nat) (hlen : bs.length = 511)
    (b1 : UartRxBuffer) (hh : b1.head = 511) (ht : b1.tail = 0)
    (hdata : ∀ j, j < 511 → b1.data j = bs.getD j 0)
    (n : Nat) (hn : 511 ≤ n) :
    (uart_buffer_getN b1 n).1 = bs := by
  rw [uart_buffer_getN_spec n b1 0 ht (by omega) (by omega) (by omega), hh]
  rw [List.map_congr_left (g := fun i => bs.getD i 0) ?_]
  · rw [show (511 : Nat) - 0 = bs.length from by omega]
    exact getD_range_eq bs
  · intro i hi
    rw [List.mem_range] at hi
    rw [Nat.zero_add]
    exact hdata i (by omega)

/-- C4: on a freshly initialized ring buffer of capacity 512, inserting
511 (= C-1) bytes succeeds and draining them returns exactly the inserted
bytes in FIFO order; a get reports the buffer empty exactly when
head = tail; and a 512th insertion without draining fails, sets the
sticky overflow flag without touching data or indices, and that 512th
byte is not retrievable (a full drain still yields only the first 511
bytes). -/
theorem uart_ring_buffer_fifo_overflow :
    (∀ bs : List Nat, bs.length = 511 →
      (uart_buffer_putList freshBuffer bs).2 = List.replicate 511 true ∧
      (uart_buffer_getN (uart_buffer_putList freshBuffer bs).1 511).1 = bs) ∧
    (∀ b : UartRxBuffer, (uart_buffer_get b).1 = none ↔ b.head = b.tail) ∧
    (∀ (bs : List Nat) (c : Nat), bs.length = 511 →
      (uart_buffer_put (uart_buffer_putList freshBuffer bs).1 c).1 = false ∧
      (uart_buffer_put (uart_buffer_putList freshBuffer bs).1 c).2 =
        { (uart_buffer_putList freshBuffer bs).1 with overflow := true } ∧
      (uart_buffer_getN (uart_buffer_put (uart_buffer_putList freshBuffer bs).1 c).2 512).1 = bs) := by
  refine ⟨?_, ?_, ?_⟩
  · intro bs hlen
    obtain ⟨fh, ftl, _, fres, fdata⟩ :=
      uart_buffer_putList_spec bs freshBuffer 0 rfl rfl (by omega)
    refine ⟨by rw [fres, hlen], ?_⟩
    refine uart_buffer_drain_full bs hlen _ (by rw [fh, hlen]) ftl ?_ 511 (le_refl _)
    intro j hj
    rw [fdata j, if_pos ⟨Nat.zero_le j, by omega⟩, Nat.sub_zero]
  · intro b
    by_cases h : b.head = b.tail <;> simp [uart_buffer_get, h]
  · intro bs c hlen
    obtain ⟨fh, ftl, _, _, fdata⟩ :=
      uart_buffer_putList_spec bs freshBuffer 0 rfl rfl (by omega)
    have hh : (uart_buffer_putList freshBuffer bs).1.head = 511 := by rw [fh, hlen]
    have hcond : ((uart_buffer_putList freshBuffer bs).1.head + 1) % 512 =
        (uart_buffer_putList freshBuffer bs).1.tail := by
      rw [hh, ftl]
    have hput : uart_buffer_put (uart_buffer_putList freshBuffer bs).1 c =
        (false, { (uart_buffer_putList freshBuffer bs).1 with overflow := true }) := by
      simp [uart_buffer_put, hcond]
    refine ⟨by rw [hput], by rw [hput], ?_⟩
    rw [hput]
    refine uart_buffer_drain_full bs hlen _ (by simpa using hh) (by simpa using ftl) ?_
      512 (by omega)
    intro j hj
    show (uart_buffer_putList freshBuffer bs).1.data j = bs.getD j 0
    rw [fdata j, if_pos ⟨Nat.zero_le j, by omega⟩, Nat.sub_zero]

/-- Witness for C4 at a concrete 511-byte fill. -/
theorem uart_ring_buffer_fifo_overflow_witness :
    ((List.replicate 511 65).length = 511 ∧
      (uart_buffer_putList freshBuffer (List.replicate 511 65)).2 = List.replicate 511 true ∧
      (uart_buffer_getN (uart_buffer_putList freshBuffer (List.replicate 511 65)).1 511).1 =
        List.replicate 511 65) ∧
    ((uart_buffer_get freshBuffer).1 = none ↔ freshBuffer.head = freshBuffer.tail) ∧
    ((uart_buffer_put (uart_buffer_putList freshBuffer (List.replicate 511 65)).1 66).1 = false ∧
      (uart_buffer_put (uart_buffer_putList freshBuffer (List.replicate 511 65)).1 66).2 =
        { (uart_buffer_putList freshBuffer (List.replicate 511 65)).1 with overflow := true } ∧
      (uart_buffer_getN
        (uart_buffer_put (uart_buffer_putList freshBuffer (List.replicate 511 65)).1 66).2 512).1 =
        List.replicate 511 65) :=
  ⟨⟨List.length_replicate 511 65,
      uart_ring_buffer_fifo_overflow.1 (List.replicate 511 65) (List.length_replicate 511 65)⟩,
    uart_ring_buffer_fifo_overflow.2.1 freshBuffer,
    uart_ring_buffer_fifo_overflow.2.2 (List.replicate 511 65) 66 (List.length_replicate 511 65)⟩

end PicoLora

namespace PicoLora

/-- Every successful return of the line loop carries a nonempty line:
all success sites are guarded by a positive accumulation length. -/
theorem uart_buffer_get_line_go_some_nonempty (fuel : Nat) :
    ∀ (b : UartRxBuffer) (acc : List Nat) (maxLen : Nat) (l : List Nat) (b' : UartRxBuffer),
      uart_buffer_get_line_go fuel b acc maxLen = (some l, b') → l ≠ [] := by
  induction fuel with
  | zero =>
    intro b acc maxLen l b' h
    rw [uart_buffer_get_line_go] at h
    by_cases hlt : acc.length < maxLen - 1
    · rw [if_pos hlt] at h
      rcases hget : uart_buffer_get b with ⟨_ | c, b2⟩ <;> rw [hget] at h <;> dsimp only at h
      · split at h
        · simp only [Prod.mk.injEq, Option.some.injEq] at h
          obtain ⟨rfl, rfl⟩ := h
          exact List.ne_nil_of_length_pos (by omega)
        · simp at h
      · simp at h
    · rw [if_neg hlt] at h
      split at h
      · simp only [Prod.mk.injEq, Option.some.injEq] at h
        obtain ⟨rfl, rfl⟩ := h
        exact List.ne_nil_of_length_pos (by omega)
      · simp at h
  | succ fuel ih =>
    intro b acc maxLen l b' h
    rw [uart_buffer_get_line_go] at h
    by_cases hlt : acc.length < maxLen - 1
    · rw [if_pos hlt] at h
      rcases hget : uart_buffer_get b with ⟨_ | c, b2⟩ <;> rw [hget] at h <;> dsimp only at h
      · split at h
        · simp only [Prod.mk.injEq, Option.some.injEq] at h
          obtain ⟨rfl, rfl⟩ := h
          exact List.ne_nil_of_length_pos (by omega)
        · simp at h
      · split at h
        · split at h
          · simp only [Prod.mk.injEq, Option.some.injEq] at h
            obtain ⟨rfl, rfl⟩ := h
            exact List.ne_nil_of_length_pos (by omega)
          · exact ih _ _ _ _ _ h
        · exact ih _ _ _ _ _ h
    · rw [if_neg hlt] at h
      split at h
      · simp only [Prod.mk.injEq, Option.some.injEq] at h
        obtain ⟨rfl, rfl⟩ := h
        exact List.ne_nil_of_length_pos (by omega)
      · simp at h

end PicoLora

namespace PicoLora

/-- C5: `uart_buffer_get_line` never returns an empty line (terminators
seen with nothing accumulated are consumed silently); an exhausted buffer
with nothing accumulated reports no line; buffered "AB\r\nCD\r\n" yields
"AB" then "CD"; and buffered "\r\n\r\nXY" yields exactly "XY" (the
leading empty lines are skipped, the partial line is returned, and
nothing further remains). -/
theorem uart_buffer_get_line_spec :
    (∀ (b : UartRxBuffer) (maxLen : Nat) (l : List Nat) (b' : UartRxBuffer),
      2 ≤ maxLen → uart_buffer_get_line b maxLen = (some l, b') → l ≠ []) ∧
    (∀ (b : UartRxBuffer) (maxLen : Nat), 2 ≤ maxLen → b.head = b.tail →
      (uart_buffer_get_line b maxLen).1 = none) ∧
    ((uart_buffer_get_line (uart_buffer_putList freshBuffer (bytes "AB\r\nCD\r\n")).1 64).1 =
        some (bytes "AB") ∧
      (uart_buffer_get_line
        (uart_buffer_get_line (uart_buffer_putList freshBuffer (bytes "AB\r\nCD\r\n")).1 64).2
        64).1 = some (bytes "CD")) ∧
    ((uart_buffer_get_line (uart_buffer_putList freshBuffer (bytes "\r\n\r\nXY")).1 64).1 =
        some (bytes "XY") ∧
      (uart_buffer_get_line
        (uart_buffer_get_line (uart_buffer_putList freshBuffer (bytes "\r\n\r\nXY")).1 64).2
        64).1 = none) := by
  refine ⟨?_, ?_, by decide, by decide⟩
  · intro b maxLen l b' _ h
    exact uart_buffer_get_line_go_some_nonempty _ b [] maxLen l b' h
  · intro b maxLen hml he
    have hget : uart_buffer_get b = (none, b) := by simp [uart_buffer_get, he]
    rw [uart_buffer_get_line, uart_buffer_get_line_go,
      if_pos (show ([] : List Nat).length < maxLen - 1 by simp; omega), hget]
    simp

/-- Witness for C5: the "\r\n\r\nXY" buffer produces the nonempty line
"XY", and a fresh (empty) buffer produces no line. -/
theorem uart_buffer_get_line_spec_witness :
    ((2 : Nat) ≤ 64 ∧
      uart_buffer_get_line (uart_buffer_putList freshBuffer (bytes "\r\n\r\nXY")).1 64 =
        (some (bytes "XY"),
          (uart_buffer_get_line (uart_buffer_putList freshBuffer (bytes "\r\n\r\nXY")).1 64).2) ∧
      bytes "XY" ≠ []) ∧
    ((2 : Nat) ≤ 64 ∧ freshBuffer.head = freshBuffer.tail ∧
      (uart_buffer_get_line freshBuffer 64).1 = none) := by
  have h : uart_buffer_get_line (uart_buffer_putList freshBuffer (bytes "\r\n\r\nXY")).1 64 =
      (some (bytes "XY"),
        (uart_buffer_get_line (uart_buffer_putList freshBuffer (bytes "\r\n\r\nXY")).1 64).2) :=
    Prod.ext (by decide) rfl
  exact ⟨⟨by decide, h, uart_buffer_get_line_spec.1 _ 64 _ _ (by decide) h⟩,
    ⟨by decide, rfl, uart_buffer_get_line_spec.2.1 freshBuffer 64 (by decide) rfl⟩⟩

end PicoLora

namespace PicoStepper

/-- A trace with no advances at all satisfies the no-advance-after-read
property. -/
theorem advFree_noAdvanceAfterTrueRead (l : List StepperEv) (h : advFree l = true) :
    noAdvanceAfterTrueRead l = true := by
  induction l with
  | nil => rfl
  | cons e rest ih =>
    rw [advFree, List.all_cons, Bool.and_eq_true] at h
    match e with
    | .read true => exact h.2
    | .read false => exact ih h.2
    | .advance => simp [StepperEv.isAdvance] at h
    | .sleep ms => exact ih h.2

/-- A prefix with no true reads is transparent for the
no-advance-after-read property. -/
theorem noTrueRead_append (xs : List StepperEv) (h : noTrueRead xs = true) (ys : List StepperEv) :
    noAdvanceAfterTrueRead (xs ++ ys) = noAdvanceAfterTrueRead ys := by
  induction xs with
  | nil => rfl
  | cons e rest ih =>
    rw [noTrueRead, List.all_cons, Bool.and_eq_true] at h
    have hrest := ih h.2
    match e with
    | .read true => simp at h
    | .read false => simpa [noAdvanceAfterTrueRead] using hrest
    | .advance => simpa [noAdvanceAfterTrueRead] using hrest
    | .sleep ms => simpa [noAdvanceAfterTrueRead] using hrest

/-- An advance-free trace counts zero advances. -/
theorem countAdvances_eq_zero (l : List StepperEv) (h : advFree l = true) :
    countAdvances l = 0 := by
  rw [countAdvances, List.countP_eq_zero]
  intro e he
  rw [advFree, List.all_eq_true] at h
  simpa using h e he

/-- The chunked delay only reads the flag and sleeps. -/
theorem stepper_chunked_delay_advFree (flag : Nat → Bool) :
    ∀ (r k : Nat), advFree (stepper_chunked_delay flag k r).2 = true := by
  intro r
  induction r with
  | zero => intro k; rfl
  | succ r ih =>
    intro k
    by_cases hk : flag k
    · rw [stepper_chunked_delay, if_pos hk]
      simp [advFree, StepperEv.isAdvance]
    · rw [Bool.not_eq_true] at hk
      rw [stepper_chunked_delay, hk]
      simpa [advFree, StepperEv.isAdvance] using ih (k + 1)

/-- With a monotone flag, a delay whose final re-check still sees the
flag low cannot have read it high inside. -/
theorem stepper_chunked_delay_noTrueRead (flag : Nat → Bool) (hm : MonoFlag flag) :
    ∀ (r k : Nat), flag (stepper_chunked_delay flag k r).1 = false →
      noTrueRead (stepper_chunked_delay flag k r).2 = true := by
  intro r
  induction r with
  | zero => intro k _; rfl
  | succ r ih =>
    intro k hafter
    by_cases hk : flag k
    · exfalso
      rw [stepper_chunked_delay, if_pos hk] at hafter
      have htrue := hm k (k + 1) (by omega) hk
      simp [htrue] at hafter
    · rw [Bool.not_eq_true] at hk
      rw [stepper_chunked_delay, hk] at hafter ⊢
      have h2 := ih (k + 1) (by simpa using hafter)
      simpa [noTrueRead] using h2

end PicoStepper

namespace PicoStepper

/-- Stepping the trace predicate over a false read. -/
theorem noAdv_read_false (l : List StepperEv) :
    noAdvanceAfterTrueRead (StepperEv.read false :: l) = noAdvanceAfterTrueRead l := rfl

/-- Stepping the trace predicate over an advance. -/
theorem noAdv_advance (l : List StepperEv) :
    noAdvanceAfterTrueRead (StepperEv.advance :: l) = noAdvanceAfterTrueRead l := rfl

/-- Stepping the trace predicate over a true read. -/
theorem noAdv_read_true (l : List StepperEv) :
    noAdvanceAfterTrueRead (StepperEv.read true :: l) = advFree l := rfl

/-- `advFree` distributes over append. -/
theorem advFree_append (l1 l2 : List StepperEv) :
    advFree (l1 ++ l2) = (advFree l1 && advFree l2) := List.all_append

/-- `countAdvances` over cons. -/
theorem countAdvances_cons (e : StepperEv) (l : List StepperEv) :
    countAdvances (e :: l) = countAdvances l + (if e.isAdvance then 1 else 0) :=
  List.countP_cons _ _ _

/-- `countAdvances` over append. -/
theorem countAdvances_append (l1 l2 : List StepperEv) :
    countAdvances (l1 ++ l2) = countAdvances l1 + countAdvances l2 :=
  List.countP_append _ _ _

/-- Unfolding `advanceIterate` once. -/
theorem advanceIterate_succ (dir : StepperDirection) (n : Nat)
    (x : Gpio × List (Option StepperMotor)) :
    advanceIterate dir (n + 1) x = advanceIterate dir n (stepper_advance_all x.1 x.2 dir) := rfl

/-- Master lemma for the rotate loop under a monotone cancellation flag:
(1) the final gpio/motor state is exactly the iterate of the lock-step
advancement, once per advance event in the trace (no rollback, no other
mutation); (2) no advance event follows a flag read that returned true;
(3) if the flag is already set at the loop's first read, the state is
returned untouched after that single read. -/
theorem stepper_rotate_loop_spec (flag : Nat → Bool) (hm : MonoFlag flag)
    (dir : StepperDirection) :
    ∀ (n k : Nat) (g : Gpio) (ms : List (Option StepperMotor)),
      (((stepper_rotate_loop flag k g ms dir n).gpio,
        (stepper_rotate_loop flag k g ms dir n).motors) =
        advanceIterate dir (countAdvances (stepper_rotate_loop flag k g ms dir n).trace) (g, ms)) ∧
      noAdvanceAfterTrueRead (stepper_rotate_loop flag k g ms dir n).trace = true ∧
      (flag k = true → 0 < n →
        (stepper_rotate_loop flag k g ms dir n).gpio = g ∧
        (stepper_rotate_loop flag k g ms dir n).motors = ms ∧
        (stepper_rotate_loop flag k g ms dir n).trace = [StepperEv.read true]) := by
  intro n
  induction n with
  | zero =>
    intro k g ms
    exact ⟨rfl, rfl, fun _ h0 => absurd h0 (by omega)⟩
  | succ n ih =>
    intro k g ms
    by_cases hk0 : flag k
    · have hloop : stepper_rotate_loop flag k g ms dir (n + 1) =
          ⟨g, ms, k + 1, [StepperEv.read true]⟩ := by
        rw [stepper_rotate_loop, if_pos hk0]
      rw [hloop]
      exact ⟨rfl, rfl, fun _ _ => ⟨rfl, rfl, rfl⟩⟩
    · rw [Bool.not_eq_true] at hk0
      refine ⟨?_, ?_, fun htrue _ => absurd htrue (by simp [hk0])⟩
      · simp only [stepper_rotate_loop, hk0, Bool.false_eq_true, if_false]
        split
        next hd =>
          simp only [countAdvances_cons, countAdvances_append,
            countAdvances_eq_zero _ (stepper_chunked_delay_advFree flag _ _),
            StepperEv.isAdvance]
          norm_num
          exact (Prod.mk.eta).symm
        next hd =>
          rw [Bool.not_eq_true] at hd
          have ihh := ih ((stepper_chunked_delay flag (k + 1)
            ((firstEnabledDelay (stepper_advance_all g ms dir).2).getD 0)).1 + 1)
            (stepper_advance_all g ms dir).1 (stepper_advance_all g ms dir).2
          simp only [countAdvances_cons, countAdvances_append,
            countAdvances_eq_zero _ (stepper_chunked_delay_advFree flag _ _),
            StepperEv.isAdvance]
          norm_num
          rw [advanceIterate_succ]
          exact ihh.1
      · simp only [stepper_rotate_loop, hk0, Bool.false_eq_true, if_false]
        split
        next hd =>
          dsimp only
          rw [noAdv_read_false, noAdv_advance]
          refine advFree_noAdvanceAfterTrueRead _ ?_
          rw [advFree_append, stepper_chunked_delay_advFree flag _ _]
          rfl
        next hd =>
          rw [Bool.not_eq_true] at hd
          dsimp only
          rw [noAdv_read_false, noAdv_advance,
            noTrueRead_append _ (stepper_chunked_delay_noTrueRead flag hm _ _ hd) _,
            noAdv_read_false]
          exact (ih _ _ _).2.1

end PicoStepper

namespace PicoStepper

/-- Advancing an empty motor array changes nothing. -/
theorem advanceIterate_nil (dir : StepperDirection) :
    ∀ (n : Nat) (g : Gpio), advanceIterate dir n (g, ([] : List (Option StepperMotor))) = (g, []) := by
  intro n
  induction n with
  | zero => intro g; rfl
  | succ n ih => intro g; exact ih g

/-- C2: under a level-triggered (monotone) cancellation flag,
`stepper_rotate_multiple_degrees` (a) returns with gpio and every
motor's state untouched when the flag is already set at the first check;
(b) performs no lock-step advance at or after any flag read that
returned true; and (c) its final state is exactly the lock-step
advancement iterated once per advance it performed - phases already
reached are kept, never rolled back, and nothing else is mutated. -/
theorem rotate_many_cancellation :
    ∀ (flag : Nat → Bool) (g : Gpio) (ms : List (Option StepperMotor)) (degrees : ℚ)
      (dir : StepperDirection) (spr : Nat), MonoFlag flag →
      ((flag 0 = true →
        (stepper_rotate_multiple_degrees flag g ms degrees dir spr).gpio = g ∧
        (stepper_rotate_multiple_degrees flag g ms degrees dir spr).motors = ms) ∧
      noAdvanceAfterTrueRead (stepper_rotate_multiple_degrees flag g ms degrees dir spr).trace =
        true ∧
      ((stepper_rotate_multiple_degrees flag g ms degrees dir spr).gpio,
       (stepper_rotate_multiple_degrees flag g ms degrees dir spr).motors) =
        advanceIterate dir
          (countAdvances (stepper_rotate_multiple_degrees flag g ms degrees dir spr).trace)
          (g, ms)) := by
  intro flag g ms degrees dir spr hm
  rw [stepper_rotate_multiple_degrees]
  by_cases he : ms.isEmpty
  · rw [if_pos he]
    exact ⟨fun _ => ⟨rfl, rfl⟩, rfl, rfl⟩
  · rw [if_neg he]
    obtain ⟨h1, h2, h3⟩ :=
      stepper_rotate_loop_spec flag hm dir (stepper_steps_of_degrees degrees spr) 0 g ms
    refine ⟨?_, h2, h1⟩
    intro hf
    rcases Nat.eq_zero_or_pos (stepper_steps_of_degrees degrees spr) with hz | hp
    · rw [hz]
      exact ⟨rfl, rfl⟩
    · obtain ⟨hg, hmot, _⟩ := h3 hf hp
      exact ⟨hg, hmot⟩

/-- Witness for C2: flag permanently set, one enabled motor, 90 degrees. -/
theorem rotate_many_cancellation_witness :
    MonoFlag (fun _ => true) ∧
    (((fun _ => true) 0 = true →
      (stepper_rotate_multiple_degrees (fun _ => true) (fun _ => false)
        [some ⟨1, 2, 3, 4, 2, 0, true⟩] 90 StepperDirection.cw 4096).gpio = (fun _ => false) ∧
      (stepper_rotate_multiple_degrees (fun _ => true) (fun _ => false)
        [some ⟨1, 2, 3, 4, 2, 0, true⟩] 90 StepperDirection.cw 4096).motors =
        [some ⟨1, 2, 3, 4, 2, 0, true⟩]) ∧
    noAdvanceAfterTrueRead (stepper_rotate_multiple_degrees (fun _ => true) (fun _ => false)
      [some ⟨1, 2, 3, 4, 2, 0, true⟩] 90 StepperDirection.cw 4096).trace = true ∧
    ((stepper_rotate_multiple_degrees (fun _ => true) (fun _ => false)
        [some ⟨1, 2, 3, 4, 2, 0, true⟩] 90 StepperDirection.cw 4096).gpio,
     (stepper_rotate_multiple_degrees (fun _ => true) (fun _ => false)
        [some ⟨1, 2, 3, 4, 2, 0, true⟩] 90 StepperDirection.cw 4096).motors) =
      advanceIterate StepperDirection.cw
        (countAdvances (stepper_rotate_multiple_degrees (fun _ => true) (fun _ => false)
          [some ⟨1, 2, 3, 4, 2, 0, true⟩] 90 StepperDirection.cw 4096).trace)
        ((fun _ => false), [some ⟨1, 2, 3, 4, 2, 0, true⟩])) :=
  ⟨fun _ _ _ h => h,
    rotate_many_cancellation (fun _ => true) (fun _ => false)
      [some ⟨1, 2, 3, 4, 2, 0, true⟩] 90 StepperDirection.cw 4096 (fun _ _ _ h => h)⟩

/-- With the flag never set the rotate loop runs all its steps. -/
theorem stepper_rotate_loop_false (dir : StepperDirection) :
    ∀ (n k : Nat) (g : Gpio) (ms : List (Option StepperMotor)),
      ((stepper_rotate_loop (fun _ => false) k g ms dir n).gpio,
       (stepper_rotate_loop (fun _ => false) k g ms dir n).motors) =
        advanceIterate dir n (g, ms) := by
  intro n
  induction n with
  | zero => intro k g ms; rfl
  | succ n ih =>
    intro k g ms
    rw [stepper_rotate_loop]
    simp only [Bool.false_eq_true, if_false]
    rw [advanceIterate_succ]
    exact ih _ _ _

/-- C6 (amended): the multi-motor rotate computes its step count once
- as the truncation (not rounding) of degrees/360 x steps_per_revolution
- and that single count is shared by every motor: an uncancelled run
ends in exactly that many lock-step advancements of the whole array. -/
theorem rotate_many_shared_trunc_count :
    ∀ (g : Gpio) (ms : List (Option StepperMotor)) (degrees : ℚ)
      (dir : StepperDirection) (spr : Nat),
      ((stepper_rotate_multiple_degrees (fun _ => false) g ms degrees dir spr).gpio,
       (stepper_rotate_multiple_degrees (fun _ => false) g ms degrees dir spr).motors) =
        advanceIterate dir (stepper_steps_of_degrees degrees spr) (g, ms) ∧
      stepper_steps_of_degrees degrees spr = (⌊degrees / 360 * spr⌋).toNat := by
  intro g ms degrees dir spr
  refine ⟨?_, rfl⟩
  rw [stepper_rotate_multiple_degrees]
  by_cases he : ms.isEmpty
  · rw [if_pos he]
    rw [List.isEmpty_iff] at he
    subst he
    exact (advanceIterate_nil dir _ g).symm
  · rw [if_neg he]
    exact stepper_rotate_loop_false dir _ 0 g ms

/-- C6 counterexample: at 50 degrees with 4096 steps per revolution the
code's truncated count is 568 while the spec's round(...) is 569, so the
step count is not computed by rounding. -/
theorem rotate_steps_trunc_ne_round :
    stepper_steps_of_degrees 50 4096 = 568 ∧ specRoundSteps 50 4096 = 569 ∧
    decide (stepper_steps_of_degrees 50 4096 = specRoundSteps 50 4096) = false := by
  refine ⟨?_, ?_, ?_⟩ <;> norm_num [stepper_steps_of_degrees, specRoundSteps, round_eq] <;>
    decide

end PicoStepper

namespace PicoStepper

/-- Four successive low writes leave a pin either untouched or low. -/
theorem quad_put_false (g : Gpio) (p1 p2 p3 p4 p : Nat) :
    (gpio_put (gpio_put (gpio_put (gpio_put g p1 false) p2 false) p3 false) p4 false) p = g p ∨
    (gpio_put (gpio_put (gpio_put (gpio_put g p1 false) p2 false) p3 false) p4 false) p = false := by
  simp only [gpio_put]
  split_ifs <;> simp

/-- Four successive low writes drive each written pin low. -/
theorem quad_put_false_at (g : Gpio) (p1 p2 p3 p4 p : Nat)
    (h : p = p1 ∨ p = p2 ∨ p = p3 ∨ p = p4) :
    (gpio_put (gpio_put (gpio_put (gpio_put g p1 false) p2 false) p3 false) p4 false) p = false := by
  simp only [gpio_put]
  rcases h with h | h | h | h <;> subst h <;> split_ifs <;> simp_all

/-- The emergency stop only ever writes pins low. -/
theorem stepper_emergency_gpio_mono :
    ∀ (ms : List StepperMotor) (g : Gpio) (p : Nat),
      (stepper_emergency_stop_all g ms).1 p = g p ∨
      (stepper_emergency_stop_all g ms).1 p = false := by
  intro ms
  induction ms with
  | nil => intro g p; exact Or.inl rfl
  | cons m rest ih =>
    intro g p
    rw [stepper_emergency_stop_all]
    rcases ih (gpio_put (gpio_put (gpio_put (gpio_put g m.pin1 false) m.pin2 false)
      m.pin3 false) m.pin4 false) p with h | h
    · rcases quad_put_false g m.pin1 m.pin2 m.pin3 m.pin4 p with h2 | h2
      · exact Or.inl (h.trans h2)
      · exact Or.inr (h.trans h2)
    · exact Or.inr h

/-- The emergency stop disables every motor and changes nothing else in
the motor records. -/
theorem stepper_emergency_motors_map :
    ∀ (ms : List StepperMotor) (g : Gpio),
      (stepper_emergency_stop_all g ms).2.1 =
        ms.map (fun m => { m with enabled := false }) := by
  intro ms
  induction ms with
  | nil => intro g; rfl
  | cons m rest ih =>
    intro g
    rw [stepper_emergency_stop_all, List.map_cons]
    exact congrArg _ (ih _)

/-- The emergency stop performs no sleep and no cancellation-flag read. -/
theorem stepper_emergency_trace_nil :
    ∀ (ms : List StepperMotor) (g : Gpio), (stepper_emergency_stop_all g ms).2.2 = [] := by
  intro ms
  induction ms with
  | nil => intro g; rfl
  | cons m rest ih =>
    intro g
    rw [stepper_emergency_stop_all]
    exact ih _

/-- The emergency stop leaves every stopped motor's four pins low. -/
theorem stepper_emergency_pins_low :
    ∀ (ms : List StepperMotor) (g : Gpio) (m : StepperMotor), m ∈ ms →
      (stepper_emergency_stop_all g ms).1 m.pin1 = false ∧
      (stepper_emergency_stop_all g ms).1 m.pin2 = false ∧
      (stepper_emergency_stop_all g ms).1 m.pin3 = false ∧
      (stepper_emergency_stop_all g ms).1 m.pin4 = false := by
  intro ms
  induction ms with
  | nil => intro g m hm; exact absurd hm (List.not_mem_nil m)
  | cons m0 rest ih =>
    intro g m hm
    rw [stepper_emergency_stop_all]
    rcases List.mem_cons.mp hm with rfl | hmem
    · refine ⟨?_, ?_, ?_, ?_⟩
      · rcases stepper_emergency_gpio_mono rest _ m.pin1 with h | h
        · rw [h]
          exact quad_put_false_at g m.pin1 m.pin2 m.pin3 m.pin4 m.pin1 (Or.inl rfl)
        · exact h
      · rcases stepper_emergency_gpio_mono rest _ m.pin2 with h | h
        · rw [h]
          exact quad_put_false_at g m.pin1 m.pin2 m.pin3 m.pin4 m.pin2 (Or.inr (Or.inl rfl))
        · exact h
      · rcases stepper_emergency_gpio_mono rest _ m.pin3 with h | h
        · rw [h]
          exact quad_put_false_at g m.pin1 m.pin2 m.pin3 m.pin4 m.pin3
            (Or.inr (Or.inr (Or.inl rfl)))
        · exact h
      · rcases stepper_emergency_gpio_mono rest _ m.pin4 with h | h
        · rw [h]
          exact quad_put_false_at g m.pin1 m.pin2 m.pin3 m.pin4 m.pin4
            (Or.inr (Or.inr (Or.inr rfl)))
        · exact h
    · exact ih _ m hmem

/-- C3: `stepper_emergency_stop_all` unconditionally drives all four
outputs of every motor in the array low and marks every motor disabled
(touching nothing else in the records), with no delay and no
cancellation-flag check (its event trace is empty). -/
theorem stepper_emergency_stop_spec :
    ∀ (g : Gpio) (ms : List StepperMotor),
      (stepper_emergency_stop_all g ms).2.1 =
        ms.map (fun m => { m with enabled := false }) ∧
      (∀ m ∈ ms,
        (stepper_emergency_stop_all g ms).1 m.pin1 = false ∧
        (stepper_emergency_stop_all g ms).1 m.pin2 = false ∧
        (stepper_emergency_stop_all g ms).1 m.pin3 = false ∧
        (stepper_emergency_stop_all g ms).1 m.pin4 = false) ∧
      (stepper_emergency_stop_all g ms).2.2 = [] :=
  fun g ms =>
    ⟨stepper_emergency_motors_map ms g,
     fun m hm => stepper_emergency_pins_low ms g m hm,
     stepper_emergency_trace_nil ms g⟩

/-- Witness for C3: one enabled motor with pins 1-4, all outputs
initially high. -/
theorem stepper_emergency_stop_spec_witness :
    ((⟨1, 2, 3, 4, 5, 6, true⟩ : StepperMotor) ∈ [(⟨1, 2, 3, 4, 5, 6, true⟩ : StepperMotor)]) ∧
    (stepper_emergency_stop_all (fun _ => true) [(⟨1, 2, 3, 4, 5, 6, true⟩ : StepperMotor)]).2.1 =
      [(⟨1, 2, 3, 4, 5, 6, false⟩ : StepperMotor)] ∧
    (stepper_emergency_stop_all (fun _ => true)
      [(⟨1, 2, 3, 4, 5, 6, true⟩ : StepperMotor)]).1 1 = false ∧
    (stepper_emergency_stop_all (fun _ => true)
      [(⟨1, 2, 3, 4, 5, 6, true⟩ : StepperMotor)]).2.2 = [] := by
  have h := stepper_emergency_stop_spec (fun _ => true) [(⟨1, 2, 3, 4, 5, 6, true⟩ : StepperMotor)]
  refine ⟨List.mem_singleton.mpr rfl, h.1, ?_, h.2.2⟩
  exact (h.2.1 _ (List.mem_singleton.mpr rfl)).1

end PicoStepper

namespace PicoStepper

/-- One phase advance stays in 0..7. -/
theorem stepper_next_step_range (dir : StepperDirection) (s : Int)
    (h0 : 0 ≤ s) (h8 : s < 8) :
    0 ≤ stepper_next_step dir s ∧ stepper_next_step dir s < 8 := by
  cases dir <;> interval_cases s <;> decide

/-- `stepper_apply_step` stores exactly the requested phase on an
enabled motor and leaves a disabled motor's record untouched; either
way, applying it to a motor already carrying the step keeps that step. -/
theorem stepper_apply_step_current (g : Gpio) (m : StepperMotor) (s : Int)
    (hs : m.current_step = s) :
    (stepper_apply_step g m s).2.current_step = s := by
  rw [stepper_apply_step]
  split
  · exact hs
  · rfl

/-- Lock-step advancement keeps every (non-null) motor's phase in
0..7. -/
theorem stepper_advance_all_range (dir : StepperDirection) :
    ∀ (ms : List (Option StepperMotor)) (g : Gpio),
      (∀ m? ∈ ms, motorStepInRange m?) →
      ∀ m? ∈ (stepper_advance_all g ms dir).2, motorStepInRange m? := by
  intro ms
  induction ms with
  | nil => intro g _ m? hm?; exact absurd hm? (List.not_mem_nil m?)
  | cons hd rest ih =>
    intro g hms m? hm?
    match hd with
    | none =>
      rw [stepper_advance_all] at hm?
      rcases List.mem_cons.mp hm? with rfl | hmem
      · intro m hmm
        exact absurd hmm (by simp)
      · exact ih g (fun x hx => hms x (List.mem_cons_of_mem _ hx)) m? hmem
    | some m0 =>
      rw [stepper_advance_all] at hm?
      by_cases hen : m0.enabled
      · rw [if_pos hen] at hm?
        rcases List.mem_cons.mp hm? with rfl | hmem
        · intro m hmm
          have hr := hms (some m0) (List.mem_cons_self _ _) m0 rfl
          have hnext := stepper_next_step_range dir m0.current_step hr.1 hr.2
          have hcur := stepper_apply_step_current g
            { m0 with current_step := stepper_next_step dir m0.current_step }
            (stepper_next_step dir m0.current_step) rfl
          rw [Option.some.injEq] at hmm
          rw [← hmm, hcur]
          exact hnext
        · exact ih _ (fun x hx => hms x (List.mem_cons_of_mem _ hx)) m? hmem
      · rw [if_neg hen] at hm?
        rcases List.mem_cons.mp hm? with rfl | hmem
        · exact hms _ (List.mem_cons_self _ _)
        · exact ih g (fun x hx => hms x (List.mem_cons_of_mem _ hx)) m? hmem

/-- The rotate loop keeps every motor's phase in 0..7. -/
theorem stepper_rotate_loop_range (flag : Nat → Bool) (dir : StepperDirection) :
    ∀ (n k : Nat) (g : Gpio) (ms : List (Option StepperMotor)),
      (∀ m? ∈ ms, motorStepInRange m?) →
      ∀ m? ∈ (stepper_rotate_loop flag k g ms dir n).motors, motorStepInRange m? := by
  intro n
  induction n with
  | zero => intro k g ms h; exact h
  | succ n ih =>
    intro k g ms hms
    by_cases hk : flag k
    · rw [stepper_rotate_loop, if_pos hk]
      exact hms
    · rw [Bool.not_eq_true] at hk
      rw [stepper_rotate_loop, hk]
      simp only [Bool.false_eq_true, if_false]
      split
      · exact stepper_advance_all_range dir ms g hms
      · exact ih _ _ _ (stepper_advance_all_range dir ms g hms)

/-- The single-motor stepping loop keeps the phase in 0..7. -/
theorem stepper_move_loop_range (flag : Nat → Bool) (dir : StepperDirection) :
    ∀ (n k : Nat) (g : Gpio) (m : StepperMotor),
      0 ≤ m.current_step → m.current_step < 8 →
      0 ≤ (stepper_move_loop flag k g m dir n).motor.current_step ∧
      (stepper_move_loop flag k g m dir n).motor.current_step < 8 := by
  intro n
  induction n with
  | zero => intro k g m h0 h8; exact ⟨h0, h8⟩
  | succ n ih =>
    intro k g m h0 h8
    by_cases hk : flag k
    · rw [stepper_move_loop, if_pos hk]
      exact ⟨h0, h8⟩
    · rw [Bool.not_eq_true] at hk
      rw [stepper_move_loop, hk]
      simp only [Bool.false_eq_true, if_false]
      have hnext := stepper_next_step_range dir m.current_step h0 h8
      have hcur := stepper_apply_step_current (g := g)
        { m with current_step := stepper_next_step dir m.current_step }
        (stepper_next_step dir m.current_step) rfl
      split
      · dsimp only
        rw [hcur]
        exact hnext
      · refine ih _ _ _ ?_ ?_ <;> rw [hcur]
        · exact hnext.1
        · exact hnext.2

/-- C10: every stepper operation preserves the phase-index invariant
0 <= current_step <= 7: init starts at 0; one advance is
(s+1) % 8 resp. (s-1+8) % 8 and stays in range; `stepper_move_steps` and
`stepper_rotate_multiple_degrees` keep every motor in range; disable,
enable and emergency stop never change the phase; and the position query
returns -1 for a null motor and the in-range phase otherwise. -/
theorem stepper_phase_invariant :
    (∀ (g : Gpio) (p1 p2 p3 p4 d : Nat),
      (stepper_init g p1 p2 p3 p4 d).2.current_step = 0) ∧
    (∀ (dir : StepperDirection) (s : Int), 0 ≤ s → s < 8 →
      0 ≤ stepper_next_step dir s ∧ stepper_next_step dir s < 8) ∧
    (∀ (flag : Nat → Bool) (g : Gpio) (m : StepperMotor) (dir : StepperDirection) (n : Nat),
      0 ≤ m.current_step → m.current_step < 8 →
      0 ≤ (stepper_move_steps flag g m dir n).motor.current_step ∧
      (stepper_move_steps flag g m dir n).motor.current_step < 8) ∧
    (∀ (flag : Nat → Bool) (g : Gpio) (ms : List (Option StepperMotor)) (degrees : ℚ)
      (dir : StepperDirection) (spr : Nat),
      (∀ m? ∈ ms, motorStepInRange m?) →
      ∀ m? ∈ (stepper_rotate_multiple_degrees flag g ms degrees dir spr).motors,
        motorStepInRange m?) ∧
    (∀ (g : Gpio) (m : StepperMotor),
      (stepper_disable g m).2.current_step = m.current_step ∧
      (stepper_enable g m).2.current_step = m.current_step) ∧
    (∀ (g : Gpio) (ms : List StepperMotor),
      (∀ m ∈ ms, 0 ≤ m.current_step ∧ m.current_step < 8) →
      ∀ m2 ∈ (stepper_emergency_stop_all g ms).2.1,
        0 ≤ m2.current_step ∧ m2.current_step < 8) ∧
    (stepper_get_position none = -1) ∧
    (∀ m : StepperMotor, stepper_get_position (some m) = m.current_step ∧
      (0 ≤ m.current_step → m.current_step < 8 →
        0 ≤ stepper_get_position (some m) ∧ stepper_get_position (some m) < 8)) := by
  refine ⟨?_, stepper_next_step_range, ?_, ?_, ?_, ?_, rfl, ?_⟩
  · intro g p1 p2 p3 p4 d
    exact stepper_apply_step_current g _ 0 rfl
  · intro flag g m dir n h0 h8
    rw [stepper_move_steps]
    split
    · exact ⟨h0, h8⟩
    · exact stepper_move_loop_range flag dir n 0 g m h0 h8
  · intro flag g ms degrees dir spr hms
    rw [stepper_rotate_multiple_degrees]
    split
    · exact hms
    · exact stepper_rotate_loop_range flag dir _ 0 g ms hms
  · intro g m
    exact ⟨rfl, stepper_apply_step_current g { m with enabled := true } m.current_step rfl⟩
  · intro g ms hms m2 hm2
    rw [stepper_emergency_motors_map ms g] at hm2
    obtain ⟨m0, hm0, rfl⟩ := List.mem_map.mp hm2
    exact hms m0 hm0
  · intro m
    exact ⟨rfl, fun h0 h8 => ⟨h0, h8⟩⟩

/-- Witness for C10 at a concrete motor and rotation. -/
theorem stepper_phase_invariant_witness :
    ((0 : Int) ≤ 5 ∧ (5 : Int) < 8 ∧
      0 ≤ (stepper_move_steps (fun _ => false) (fun _ => false) ⟨1, 2, 3, 4, 1, 5, true⟩
        StepperDirection.ccw 4).motor.current_step ∧
      (stepper_move_steps (fun _ => false) (fun _ => false) ⟨1, 2, 3, 4, 1, 5, true⟩
        StepperDirection.ccw 4).motor.current_step < 8) ∧
    ((∀ m? ∈ [some (⟨1, 2, 3, 4, 1, 7, true⟩ : StepperMotor)], motorStepInRange m?) ∧
      ∀ m? ∈ (stepper_rotate_multiple_degrees (fun _ => false) (fun _ => false)
        [some (⟨1, 2, 3, 4, 1, 7, true⟩ : StepperMotor)] 1 StepperDirection.cw 4096).motors,
        motorStepInRange m?) := by
  have hrange : ∀ m? ∈ [some (⟨1, 2, 3, 4, 1, 7, true⟩ : StepperMotor)], motorStepInRange m? := by
    intro m? hm?
    rw [List.mem_singleton] at hm?
    subst hm?
    intro m hm
    rw [Option.some.injEq] at hm
    subst hm
    exact ⟨by decide, by decide⟩
  refine ⟨⟨by decide, by decide, ?_, ?_⟩, hrange, ?_⟩
  · exact (stepper_phase_invariant.2.2.1 (fun _ => false) (fun _ => false)
      ⟨1, 2, 3, 4, 1, 5, true⟩ StepperDirection.ccw 4 (by decide) (by decide)).1
  · exact (stepper_phase_invariant.2.2.1 (fun _ => false) (fun _ => false)
      ⟨1, 2, 3, 4, 1, 5, true⟩ StepperDirection.ccw 4 (by decide) (by decide)).2
  · exact stepper_phase_invariant.2.2.2.1 (fun _ => false) (fun _ => false)
      [some (⟨1, 2, 3, 4, 1, 7, true⟩ : StepperMotor)] 1 StepperDirection.cw 4096 hrange

end PicoStepper
